import Mathlib

/-
Verification of the streaming-response reconciliation engine of
src/FrontApp/flask_chatbot_app.py.

The embedding models:
  * `_collect_tool_details` (lines 78-144): the recursive walker over
    heterogeneous chunk trees.  Python objects form a graph, so nodes are
    modelled as a `Heap` (an index-addressed store) and child links are
    indices; this makes self-referential (cyclic) structures expressible.
    The walker's `depth` parameter and its `depth > 10` guard are carried
    as the fuel `11 - depth`: fuel `0` is exactly `depth > 10`, and each
    recursive call passes `depth + 1`, i.e. one unit less fuel.
  * the reconciliation tail of `extract_code_interpreter_outputs`
    (lines 214-308): image dedup-and-latest, tool dedup by
    (name, arguments), label derivation, the sandbox-path text scan
    (the regex of line 275 with re.IGNORECASE), and the file dedup.
  * the `/api/chat` handler (lines 658-772) at the level of its
    initialization / error-propagation control flow.
  * `_start_agent_loop` / `run_in_agent_loop` (lines 50-75) as a small
    interleaving model of concurrent callers and loop threads.
-/

namespace NLSQL

/-! ## Node model for `_collect_tool_details` -/

/-- A Python value as seen by `_walk`:
`null` is `None`; `str` a string; `mcpCall` an instance of the
strongly-typed `RunStepMcpToolCall` (its four attributes read on
lines 92-97); `wrapper` an SDK object exposing a `_data` mapping
(line 87); `dict` a mapping (value slots are heap references, so a
mapping can contain itself); `list` a sequence. -/
inductive Node where
  | null
  | str (s : String)
  | mcpCall (name server_label arguments output : String)
  | wrapper (dataRef : Nat)
  | dict (entries : List (String × Nat))
  | list (items : List Nat)
deriving DecidableEq, Repr

/-- The object store: heap reference `r` denotes `h.getD r .null`. -/
abbrev Heap := List Node

def deref (h : Heap) (r : Nat) : Node := h.getD r Node.null

/-- First-occurrence lookup of a key, as Python `obj[k]` / `obj.get(k)`. -/
def lookupRef (entries : List (String × Nat)) (k : String) : Option Nat :=
  (entries.find? fun e => e.1 == k).map Prod.snd

/-- Python `k in obj`. -/
def hasKey (entries : List (String × Nat)) (k : String) : Bool :=
  entries.any fun e => e.1 == k

/-- Python `obj.get(k)` with `None` for a missing key, dereferenced. -/
def lookupVal (h : Heap) (entries : List (String × Nat)) (k : String) : Node :=
  match lookupRef entries k with
  | some r => deref h r
  | none => Node.null

/-- Python `obj.get(k, dflt)`, dereferenced. -/
def getVal (h : Heap) (entries : List (String × Nat)) (k : String) (dflt : Node) : Node :=
  match lookupRef entries k with
  | some r => deref h r
  | none => dflt

/-- Python truthiness of a value (`if obj.get("name"):`). -/
def pyTruthy : Node → Bool
  | Node.null => false
  | Node.str s => s != ""
  | Node.mcpCall _ _ _ _ => true
  | Node.wrapper _ => true
  | Node.dict entries => entries != []
  | Node.list items => items != []

/-- Python `str(value)` as used by the f-string on line 245.  String
values render as themselves; the rendering of non-string values is
abstract (the engine only ever stores strings in these slots). -/
def pyStr : Node → String
  | Node.str s => s
  | Node.null => "None"
  | Node.mcpCall _ _ _ _ => "<RunStepMcpToolCall>"
  | Node.wrapper _ => "<object>"
  | Node.dict _ => "<dict>"
  | Node.list _ => "<list>"

/-- One `tool_info` record (lines 92-97 and 112-118).  The
`arguments_parsed` convenience copy (a best-effort `json.loads` of
`arguments`, used only for display) is not modelled; deduplication and
labels use the raw fields kept here.  `id` is `none` for records built
from `RunStepMcpToolCall` (their dict has no `"id"` key). -/
structure ToolDetail where
  name : Node
  server : Node
  arguments : Node
  output : Node
  id : Option Node
deriving DecidableEq, Repr

/-- The record built on lines 112-118 for a mapping that passed the
triple-condition guard of line 111. -/
def mkDictDetail (h : Heap) (entries : List (String × Nat)) : ToolDetail :=
  { name := getVal h entries "name" (Node.str "unknown")
    server := getVal h entries "server_label" (Node.str "unknown")
    arguments := getVal h entries "arguments" (Node.str "\x7b\x7d")
    output := getVal h entries "output" (Node.str "")
    id := some (getVal h entries "id" (Node.str "")) }

mutual

/-- `_walk(node, depth)` with `fuel = 11 - depth` (lines 82-141).
`fuel = 0` is the guard `depth > 10`; `Node.null` is `obj is None`.
Records are returned in the order `collected` receives them: a
mapping's own record first, then `step_details`, then `tool_calls`,
then the remaining fields in mapping order. -/
def walkAux (h : Heap) : Nat → Node → List ToolDetail
  | 0, _ => []
  | _ + 1, Node.null => []
  | _ + 1, Node.str _ => []
  | g + 1, Node.wrapper r =>
    match deref h r with
    | Node.dict entries => walkAux h g (Node.dict entries)
    | _ => []
  | _ + 1, Node.mcpCall n s a o =>
    [{ name := Node.str n, server := Node.str s, arguments := Node.str a,
       output := Node.str o, id := none }]
  | g + 1, Node.dict entries =>
    (if ((match lookupRef entries "type" with
          | some r => deref h r == Node.str "mcp"
          | none => false)
         && hasKey entries "id"
         && (match lookupRef entries "name" with
             | some r => pyTruthy (deref h r)
             | none => false))
     then [mkDictDetail h entries] else [])
    ++ (match lookupRef entries "step_details" with
        | some r => walkAux h g (deref h r)
        | none => [])
    ++ (match lookupRef entries "tool_calls" with
        | some r => walkAux h g (deref h r)
        | none => [])
    ++ walkRefs h g
         ((entries.filter fun e => !(e.1 == "step_details") && !(e.1 == "tool_calls")).map
           Prod.snd)
  | g + 1, Node.list items => walkRefs h g items
termination_by g _ => (g, 0)

/-- The `for item in obj:` / `for key, value in obj.items():` loops:
each element is visited by a fresh `_walk(item, depth + 1)` call, all
at the same depth. -/
def walkRefs (h : Heap) : Nat → List Nat → List ToolDetail
  | _, [] => []
  | g, r :: rest => walkAux h g (deref h r) ++ walkRefs h g rest
termination_by g rs => (g, rs.length + 1)

end

/-- `_collect_tool_details(raw_obj)`: the walk starts at depth 0,
i.e. fuel 11. -/
def collect_tool_details (h : Heap) (node : Node) : List ToolDetail :=
  walkAux h 11 node

/-- The recursion a mapping performs after its own (possible) emission:
lines 129-135. -/
def walkDictNested (h : Heap) (g : Nat) (entries : List (String × Nat)) : List ToolDetail :=
  (match lookupRef entries "step_details" with
   | some r => walkAux h g (deref h r)
   | none => [])
  ++ (match lookupRef entries "tool_calls" with
      | some r => walkAux h g (deref h r)
      | none => [])
  ++ walkRefs h g
       ((entries.filter fun e => !(e.1 == "step_details") && !(e.1 == "tool_calls")).map
         Prod.snd)

/-! Spec-side reading of the triple-condition guard, stated in the
spec's words ("tags itself as a tool-call kind", "carries an
identifier field", "carries a non-empty name"). -/

def taggedAsToolCall (h : Heap) (entries : List (String × Nat)) : Prop :=
  lookupVal h entries "type" = Node.str "mcp"

def carriesIdentifier (entries : List (String × Nat)) : Prop :=
  hasKey entries "id" = true

def carriesNonEmptyName (h : Heap) (entries : List (String × Nat)) : Prop :=
  pyTruthy (lookupVal h entries "name") = true

instance (h : Heap) (entries : List (String × Nat)) :
    Decidable (taggedAsToolCall h entries) := by
  unfold taggedAsToolCall; infer_instance

instance (entries : List (String × Nat)) : Decidable (carriesIdentifier entries) := by
  unfold carriesIdentifier; infer_instance

instance (h : Heap) (entries : List (String × Nat)) :
    Decidable (carriesNonEmptyName h entries) := by
  unfold carriesNonEmptyName; infer_instance

/-! ## Stack-bounded walker (termination of `_walk`)

`walkGas` is `_walk` again, but with an explicit budget of call-stack
frames: each entered `_walk` frame consumes one unit of `gas`, and the
result is `none` when the budget is exhausted before the traversal
finishes (the behaviour an unbounded recursion would exhibit).  Unlike
`walkAux`, its recursion is on `gas`, not on the depth bound, so the
`depth > 10` guard appears verbatim; the theorem that 12 frames always
suffice is exactly the statement that the guard makes `_walk`
terminate on every input, cyclic heaps included. -/

mutual

def walkGas (h : Heap) : Nat → Node → Nat → Option (List ToolDetail)
  | 0, _, _ => none
  | g + 1, node, depth =>
    if depth > 10 then some [] else
    match node with
    | Node.null => some []
    | Node.str _ => some []
    | Node.wrapper r =>
      match deref h r with
      | Node.dict entries => walkGas h g (Node.dict entries) (depth + 1)
      | _ => some []
    | Node.mcpCall n s a o =>
      some [{ name := Node.str n, server := Node.str s, arguments := Node.str a,
              output := Node.str o, id := none }]
    | Node.dict entries =>
      match (match lookupRef entries "step_details" with
             | some r => walkGas h g (deref h r) (depth + 1)
             | none => some []) with
      | none => none
      | some sd =>
        match (match lookupRef entries "tool_calls" with
               | some r => walkGas h g (deref h r) (depth + 1)
               | none => some []) with
        | none => none
        | some tc =>
          match walkGasRefs h g
                  ((entries.filter fun e =>
                     !(e.1 == "step_details") && !(e.1 == "tool_calls")).map Prod.snd)
                  (depth + 1) with
          | none => none
          | some rest =>
            some ((if ((match lookupRef entries "type" with
                        | some r => deref h r == Node.str "mcp"
                        | none => false)
                       && hasKey entries "id"
                       && (match lookupRef entries "name" with
                           | some r => pyTruthy (deref h r)
                           | none => false))
                   then [mkDictDetail h entries] else [])
                  ++ sd ++ tc ++ rest)
    | Node.list items => walkGasRefs h g items (depth + 1)
termination_by gas _ _ => (gas, 0)

def walkGasRefs (h : Heap) : Nat → List Nat → Nat → Option (List ToolDetail)
  | _, [], _ => some []
  | g, r :: rest, depth =>
    match walkGas h g (deref h r) depth with
    | none => none
    | some x =>
      match walkGasRefs h g rest depth with
      | none => none
      | some y => some (x ++ y)
termination_by gas rs _ => (gas, rs.length + 1)

end

/-! ## Reconciliation (`extract_code_interpreter_outputs`, lines 214-308) -/

/-- The seen-set/unique-list loop of lines 215-220 (images) and
235-241 (tool details), keyed by `key`. -/
def dedupLoop {α κ : Type} [DecidableEq κ] (key : α → κ) : List κ → List α → List α
  | _, [] => []
  | seen, x :: rest =>
    if key x ∈ seen then dedupLoop key seen rest
    else x :: dedupLoop key (key x :: seen) rest

/-- Spec-side statement of "deduplicate, first occurrence wins, order
preserved": keep the head, drop every later element with the same key,
recurse. -/
def dedupSpec {α κ : Type} [DecidableEq κ] (key : α → κ) : List α → List α
  | [] => []
  | x :: rest => x :: dedupSpec key (rest.filter fun y => key y ≠ key x)
termination_by l => l.length
decreasing_by
  simp only [List.length_cons]
  exact Nat.lt_succ_of_le (List.length_filter_le _ _)

/-- One element of `outputs["files"]`: either a bare string `file_id`
appended on line 197, or a metadata dict (lines 285-290 and the
converted form of line 304). -/
structure FileInfo where
  file_id : Option String
  file_name : Option String
  file_type : Option String
  sandbox_path : Option String
deriving DecidableEq, Repr

inductive FileEntry where
  | fid (s : String)
  | info (fi : FileInfo)
deriving DecidableEq, Repr

/-- Distinguishes metadata dicts from bare string ids in
`outputs["files"]`. -/
def FileEntry.isInfo : FileEntry → Bool
  | FileEntry.info _ => true
  | FileEntry.fid _ => false

/-! ### The sandbox text scan (lines 273-292)

`re.findall(r'sandbox:/mnt/data/([^\)]+\.(pptx|xlsx|csv|pdf|docx|txt|json|png|jpg))',
final_text, re.IGNORECASE)` modelled on `List Char`:
the scanner tries the pattern at each position, and on a match emits
`(group 1, group 2)` and resumes after the match (non-overlapping
matches, left to right).  `[^\)]+` is greedy with backtracking, so the
rightmost dot followed by an alternative wins; alternatives are tried
in the written order; `re.IGNORECASE` makes both the literal and the
extension alternatives match up to letter case. -/

/-- The fixed extension alternation, in pattern order. -/
def extAlternatives : List (List Char) :=
  ["pptx".data, "xlsx".data, "csv".data, "pdf".data, "docx".data,
   "txt".data, "json".data, "png".data, "jpg".data]

/-- Case-insensitive match of a (lowercase) pattern fragment against
the front of the text; returns the text characters consumed and the
remainder. -/
def ciMatch : List Char → List Char → Option (List Char × List Char)
  | [], s => some ([], s)
  | _ :: _, [] => none
  | p :: ps, c :: cs =>
    if c.toLower == p then (ciMatch ps cs).map fun r => (c :: r.1, r.2)
    else none

/-- First alternative (in order) that matches at the front of the text. -/
def altMatch : List (List Char) → List Char → Option (List Char × List Char)
  | [], _ => none
  | p :: ps, s =>
    match ciMatch p s with
    | some r => some r
    | none => altMatch ps s

/-- `[^\)]+\.(alternation)` with a greedy (longest-first, backtracking)
character class: prefer extending the class by the head character; only
if no longer match exists, close the class here and require a dot plus
an extension.  Returns (group 1, group 2, rest of text). -/
def pathMatch : List Char → Option (List Char × List Char × List Char)
  | [] => none
  | c :: rest =>
    if c == ')' then none
    else
      match pathMatch rest with
      | some (g1, g2, r) => some (c :: g1, g2, r)
      | none =>
        match rest with
        | d :: r2 =>
          if d == '.' then
            match altMatch extAlternatives r2 with
            | some (e, r3) => some (c :: d :: e, e, r3)
            | none => none
          else none
        | [] => none

/-- Case-insensitive match of the literal `sandbox:/mnt/data/`. -/
def sandboxLit : List Char := "sandbox:/mnt/data/".data

/-- Strip a (lowercase) literal from the front of the text,
case-insensitively. -/
def stripCI : List Char → List Char → Option (List Char)
  | [], s => some s
  | _ :: _, [] => none
  | p :: ps, c :: cs => if c.toLower == p then stripCI ps cs else none

/-- The findall scan: at each position try literal-then-path; on a hit
emit the two groups and resume after the match, otherwise advance one
character.  `fuel` only bounds the number of scan steps; each step
consumes at least one character, so `s.length` suffices. -/
def scanChars : Nat → List Char → List (List Char × List Char)
  | 0, _ => []
  | _ + 1, [] => []
  | fuel + 1, c :: rest =>
    match stripCI sandboxLit (c :: rest) with
    | some afterLit =>
      match pathMatch afterLit with
      | some (g1, g2, r) => (g1, g2) :: scanChars fuel r
      | none => scanChars fuel rest
    | none => scanChars fuel rest

/-- Lines 278-291: one `file_info` dict per regex match, with
`file_id=None`. -/
def sandboxFiles (text : String) : List FileEntry :=
  (scanChars text.data.length text.data).map fun m =>
    FileEntry.info
      { file_id := none
        file_name := some (String.mk m.1)
        file_type := some (String.mk m.2)
        sandbox_path := some ("sandbox:/mnt/data/" ++ String.mk m.1) }

/-- The `seen_files` ordered dict of lines 295-305: a dict entry is
keyed by its `file_name` when that is truthy (skipped entirely
otherwise); a bare string id is keyed by itself and converted to a
dict with null name and type; first insertion wins; values are
returned in insertion order. -/
def fileDedupLoop : List (String × FileInfo) → List FileEntry → List (String × FileInfo)
  | seen, [] => seen
  | seen, FileEntry.info fi :: rest =>
    (match fi.file_name with
     | some n =>
       if n ≠ "" ∧ n ∉ seen.map Prod.fst then fileDedupLoop (seen ++ [(n, fi)]) rest
       else fileDedupLoop seen rest
     | none => fileDedupLoop seen rest)
  | seen, FileEntry.fid s :: rest =>
    if s ∉ seen.map Prod.fst then
      fileDedupLoop
        (seen ++ [(s, { file_id := some s, file_name := none, file_type := none,
                        sandbox_path := none })]) rest
    else fileDedupLoop seen rest

/-- The reconciled `outputs` dict as returned on line 308. -/
structure TurnOutputs where
  images : List String
  files : List FileEntry
  tools : List String
  tool_details : List ToolDetail
deriving DecidableEq, Repr

/-- Lines 214-308 of `extract_code_interpreter_outputs`, as a function
of the raw accumulated outputs (the state at line 213) and the final
rendered text: image dedup then latest-wins (214-230), tool dedup by
(name, arguments) (234-242), label derivation (245), sandbox text scan
appending to files (273-292), file dedup (294-305). -/
def reconcile (images : List String) (tool_details : List ToolDetail)
    (files : List FileEntry) (finalText : String) : TurnOutputs :=
  let unique_images := dedupLoop (fun s => s) [] images
  let images' := if 1 < unique_images.length then [unique_images.getLastD ""]
                 else unique_images
  let unique_details := dedupLoop (fun d => (d.name, d.arguments)) [] tool_details
  let tools := unique_details.map fun d => pyStr d.server ++ ":" ++ pyStr d.name
  let allFiles := files ++ sandboxFiles finalText
  let files' := (fileDedupLoop [] allFiles).map fun kv => FileEntry.info kv.2
  { images := images', files := files', tools := tools, tool_details := unique_details }

/-! ## The `/api/chat` handler (lines 658-772) -/

/-- The module-level runtime state read on line 669:
`agent_initialized` and whether `agent` is not `None`. -/
structure AgentState where
  agentInitialized : Bool
  agentPresent : Bool
deriving DecidableEq, Repr

/-- The successful JSON payload assembled on lines 762-769, abstracted
to its response text. -/
structure ChatPayload where
  response : String
deriving DecidableEq, Repr

inductive ChatResult where
  | ok (payload : ChatPayload)
  | err (message : String) (status : Nat)
deriving DecidableEq, Repr

/-- The control flow of `chat()` (lines 658-772).  `initRun` is the
outcome of `run_in_agent_loop(initialize_agent())` (line 670): `ok`,
or `error (str e)` when it raises.  `body` is the outcome of the rest
of the `try` block (thread lookup, `handle_agent_query`, image and
file preparation, payload assembly, lines 672-769), abstracted to its
result.  The `except` clause (771-772) turns any raised exception into
the payload `{"error": str(e)}` with HTTP status 500. -/
def chat (st : AgentState) (message : String) (initRun : Except String Unit)
    (body : Except String ChatPayload) : ChatResult :=
  if message == "" then ChatResult.err "No message provided" 400
  else
    match (if !st.agentInitialized || !st.agentPresent then initRun
           else Except.ok ()) with
    | Except.error e => ChatResult.err e 500
    | Except.ok _ =>
      match body with
      | Except.error e => ChatResult.err e 500
      | Except.ok p => ChatResult.ok p

/-! ## `_start_agent_loop` / `run_in_agent_loop` (lines 50-75)

An interleaving model.  Loops are numbered in creation order (each
`asyncio.new_event_loop()` on line 57 yields a fresh id), and so are
the per-invocation `loop_ready` events and spawned threads of lines
58 and 65-66: invocation `k` creates loop `k`, event `k` and loop
thread `k`.  The global `agent_loop` holds a loop id; it is written
on line 57 and read afresh at every mention — in particular the
`return agent_loop` of line 55, the `return agent_loop` of line 68,
and `agent_loop.run_forever()` on line 63 each re-read the global,
which a concurrent invocation may have overwritten in between.

A caller thread's visible states: `start` (about to run the line-54
check), `waiting e` (created a loop, blocked in `loop_ready.wait()`
on line 67 on its own event `e`), `returnReuse` (the line-54 check
saw a running loop; line 55's re-read of the global is pending),
`returnCreated` (woke from `wait()`; line 68's re-read is pending),
and `done l reused` (returned loop id `l`, via line 55 when `reused`
and via line 68 otherwise).  Lines 54-58 and 65-66 form one atomic
caller step: each is atomic under CPython's lock, and splitting them
further only adds interleavings in which the same races occur.

A loop thread runs `_run_loop` (lines 60-63) in two steps: first
lines 61-62 (`asyncio.set_event_loop(agent_loop)`, whose read of the
global has no further observable effect, then `loop_ready.set()`);
then line 63, which re-reads the global `agent_loop` and begins
`run_forever()` on whatever loop it now holds — not necessarily the
loop created by the invocation that spawned this thread.  `runnerPC`
holds each loop thread's position: 0 before `loop_ready.set()`, 1
after it and before `run_forever()`, 2 once `run_forever()` has
begun.  (If the re-read global is already running, `run_forever`
raises in that thread and no loop starts; the running set is
unchanged.) -/

/-- A heap for exercising the triple-condition guard: reference 0 is
the string `"mcp"`, 1 a tool name, 2 a server label. -/
def guardHeap : Heap := [Node.str "mcp", Node.str "query_data", Node.str "postgres"]

/-- A mapping tagged `type="mcp"` with a name and a server label but
no `"id"` key: a server-configuration-shaped mapping. -/
def serverConfigEntries : List (String × Nat) :=
  [("type", 0), ("name", 1), ("server_label", 2)]

/-- Raw tool records (A, "{x:1}"), (A, "{x:1}"), (B, "{}") of the
dedup-correctness scenario. -/
def recA : ToolDetail :=
  { name := Node.str "A", server := Node.str "S",
    arguments := Node.str "\x7bx:1\x7d", output := Node.str "", id := none }

def recB : ToolDetail :=
  { name := Node.str "B", server := Node.str "S",
    arguments := Node.str "\x7b\x7d", output := Node.str "", id := none }

/-- Two artifact references with the same display name, the earlier
one unresolved (null identifier), the later one resolved. -/
def refNull : FileInfo :=
  { file_id := none, file_name := some "report.pdf", file_type := some "pdf",
    sandbox_path := none }

def refResolved : FileInfo :=
  { file_id := some "file_9", file_name := some "report.pdf",
    file_type := some "pdf", sandbox_path := none }

/-! ## Dedup lemmas shared by several claims -/

section Dedup

variable {α κ : Type} [DecidableEq κ] (key : α → κ)

theorem dedupLoop_eq_filter (l : List α) : ∀ seen : List κ,
    dedupLoop key seen l = dedupSpec key (l.filter fun y => key y ∉ seen) := by
  induction l with
  | nil => intro seen; simp [dedupLoop, dedupSpec]
  | cons x rest ih =>
    intro seen
    by_cases hx : key x ∈ seen
    · rw [dedupLoop, if_pos hx, ih]
      have hf : (x :: rest).filter (fun y => decide (key y ∉ seen))
          = rest.filter fun y => decide (key y ∉ seen) := by
        simp [List.filter_cons, hx]
      rw [hf]
    · rw [dedupLoop, if_neg hx, ih]
      have hf : (x :: rest).filter (fun y => decide (key y ∉ seen))
          = x :: rest.filter fun y => decide (key y ∉ seen) := by
        simp [List.filter_cons, hx]
      rw [hf, dedupSpec]
      have hff : rest.filter (fun y => decide (key y ∉ key x :: seen))
          = (rest.filter fun y => decide (key y ∉ seen)).filter
              fun y => decide (key y ≠ key x) := by
        rw [List.filter_filter]
        apply List.filter_congr
        intro y _
        by_cases h1 : key y = key x <;> by_cases h2 : key y ∈ seen <;>
          simp [h1, h2]
      rw [hff]

theorem dedupLoop_eq_spec (l : List α) :
    dedupLoop key [] l = dedupSpec key l := by
  rw [dedupLoop_eq_filter]
  congr 1
  simp

theorem mem_of_mem_dedupSpec {y : α} : ∀ l : List α, y ∈ dedupSpec key l → y ∈ l
  | [], hy => by rw [dedupSpec] at hy; exact absurd hy (List.not_mem_nil y)
  | x :: rest, hy => by
    rw [dedupSpec] at hy
    rcases List.mem_cons.mp hy with h | h
    · exact h ▸ List.mem_cons_self x rest
    · exact List.mem_cons_of_mem x
        (List.mem_of_mem_filter (mem_of_mem_dedupSpec _ h))
termination_by l => l.length
decreasing_by
  simp only [List.length_cons]
  exact Nat.lt_succ_of_le (List.length_filter_le _ _)

theorem dedupSpec_pairwise : ∀ l : List α,
    (dedupSpec key l).Pairwise fun a b => key a ≠ key b
  | [] => by rw [dedupSpec]; exact List.Pairwise.nil
  | x :: rest => by
    rw [dedupSpec]
    refine List.pairwise_cons.mpr ⟨?_, dedupSpec_pairwise _⟩
    intro y hy
    have h2 : key y ≠ key x := by
      simpa using List.of_mem_filter (mem_of_mem_dedupSpec key _ hy)
    exact h2.symm
termination_by l => l.length
decreasing_by
  simp only [List.length_cons]
  exact Nat.lt_succ_of_le (List.length_filter_le _ _)

theorem dedupSpec_of_pairwise : ∀ l : List α,
    (l.Pairwise fun a b => key a ≠ key b) → dedupSpec key l = l
  | [] => fun _ => by rw [dedupSpec]
  | x :: rest => fun h => by
    rw [dedupSpec]
    rcases List.pairwise_cons.mp h with ⟨hx, hrest⟩
    have hf : rest.filter (fun y => decide (key y ≠ key x)) = rest := by
      apply List.filter_eq_self.mpr
      intro y hy
      simpa using fun hcon => hx y hy hcon.symm
    rw [hf, dedupSpec_of_pairwise rest hrest]

theorem dedupSpec_idem (l : List α) :
    dedupSpec key (dedupSpec key l) = dedupSpec key l :=
  dedupSpec_of_pairwise key _ (dedupSpec_pairwise key l)

end Dedup

/-- C1: in every reconciled TurnOutputs the derived tool-label list and
the deduplicated tool-record list have equal length, and the label at
every index is the record's server label, a colon, and the record's
name. -/
theorem tool_labels_align (imgs : List String) (tds : List ToolDetail)
    (fls : List FileEntry) (txt : String) :
    (reconcile imgs tds fls txt).tools.length
        = (reconcile imgs tds fls txt).tool_details.length
      ∧ ∀ i : Nat,
          (reconcile imgs tds fls txt).tools.get? i
            = ((reconcile imgs tds fls txt).tool_details.get? i).map
                fun d => pyStr d.server ++ ":" ++ pyStr d.name := by
  constructor
  · simp [reconcile]
  · intro i
    simp [reconcile]

/-- C2: image reconciliation first deduplicates identifiers preserving
first-seen order, then keeps only the last one when more than one
unique identifier remains, so at most one survives; on
[img1, img2, img1, img3] the unique order is [img1, img2, img3] and
the kept list is [img3]. -/
theorem image_dedup_latest :
    (∀ (imgs : List String) (tds : List ToolDetail) (fls : List FileEntry)
       (txt : String),
       (reconcile imgs tds fls txt).images
           = (if 1 < (dedupSpec (fun s => s) imgs).length
              then [(dedupSpec (fun s => s) imgs).getLastD ""]
              else dedupSpec (fun s => s) imgs)
         ∧ (reconcile imgs tds fls txt).images.length ≤ 1)
      ∧ dedupSpec (fun s => s) ["img1", "img2", "img1", "img3"]
          = ["img1", "img2", "img3"]
      ∧ (reconcile ["img1", "img2", "img1", "img3"] [] [] "").images = ["img3"] := by
  refine ⟨fun imgs tds fls txt => ?_, ?_, by decide⟩
  · have h : (reconcile imgs tds fls txt).images
        = (if 1 < (dedupSpec (fun s => s) imgs).length
           then [(dedupSpec (fun s => s) imgs).getLastD ""]
           else dedupSpec (fun s => s) imgs) := by
      simp only [reconcile]
      rw [dedupLoop_eq_spec]
    refine ⟨h, ?_⟩
    rw [h]
    by_cases hlen : 1 < (dedupSpec (fun s => s) imgs).length
    · rw [if_pos hlen]; simp
    · rw [if_neg hlen]; exact Nat.le_of_not_lt hlen
  · rw [← dedupLoop_eq_spec]
    decide

/-- C4: tool records are deduplicated by the (name, raw arguments)
pair, first occurrence winning, order preserved; the raw records
(A,"\x7bx:1\x7d"), (A,"\x7bx:1\x7d"), (B,"\x7b\x7d") reconcile to
exactly [A, B]. -/
theorem tool_dedup_first_wins :
    (∀ (imgs : List String) (tds : List ToolDetail) (fls : List FileEntry)
       (txt : String),
       (reconcile imgs tds fls txt).tool_details
         = dedupSpec (fun d => (d.name, d.arguments)) tds)
      ∧ (reconcile [] [recA, recA, recB] [] "").tool_details = [recA, recB] := by
  refine ⟨fun imgs tds fls txt => ?_, by decide⟩
  simp only [reconcile]
  rw [dedupLoop_eq_spec]

/-- The boolean guard of line 111 holds exactly when the mapping is
tagged as the tool-call kind, carries an identifier field, and carries
a non-empty name. -/
theorem dict_guard_iff (h : Heap) (entries : List (String × Nat)) :
    (((match lookupRef entries "type" with
       | some r => deref h r == Node.str "mcp"
       | none => false)
      && hasKey entries "id"
      && (match lookupRef entries "name" with
          | some r => pyTruthy (deref h r)
          | none => false)) = true)
      ↔ taggedAsToolCall h entries ∧ carriesIdentifier entries
          ∧ carriesNonEmptyName h entries := by
  unfold taggedAsToolCall carriesIdentifier carriesNonEmptyName lookupVal
  cases hl : lookupRef entries "type" <;> cases hn : lookupRef entries "name" <;>
    simp [and_assoc, pyTruthy]

/-- C3: a generic mapping emits a ToolInvocationRecord for itself
(prepended to whatever its nested fields contribute) precisely when it
is tagged as the tool-call kind, carries an identifier field, and
carries a non-empty name; when any of the three conditions fails — in
particular when the identifier field is missing — the walk of the
mapping is exactly the walk of its nested fields, with no record for
the mapping itself. -/
theorem generic_mapping_triple_condition (h : Heap) (entries : List (String × Nat))
    (g : Nat) :
    (taggedAsToolCall h entries ∧ carriesIdentifier entries
        ∧ carriesNonEmptyName h entries →
      walkAux h (g + 1) (Node.dict entries)
        = mkDictDetail h entries :: walkDictNested h g entries)
    ∧ (¬(taggedAsToolCall h entries ∧ carriesIdentifier entries
          ∧ carriesNonEmptyName h entries) →
      walkAux h (g + 1) (Node.dict entries) = walkDictNested h g entries) := by
  have hsplit : walkAux h (g + 1) (Node.dict entries)
      = (if taggedAsToolCall h entries ∧ carriesIdentifier entries
            ∧ carriesNonEmptyName h entries
         then [mkDictDetail h entries] else []) ++ walkDictNested h g entries := by
    rw [walkAux, walkDictNested]
    by_cases htr : taggedAsToolCall h entries ∧ carriesIdentifier entries
        ∧ carriesNonEmptyName h entries
    · have hb := (dict_guard_iff h entries).mpr htr
      rw [if_pos htr, hb]
      simp
    · have hbneg : ¬(((match lookupRef entries "type" with
                       | some r => deref h r == Node.str "mcp"
                       | none => false)
                      && hasKey entries "id"
                      && (match lookupRef entries "name" with
                          | some r => pyTruthy (deref h r)
                          | none => false)) = true) :=
        fun hbt => htr ((dict_guard_iff h entries).mp hbt)
      rw [if_neg htr, if_neg hbneg]
      simp
  constructor
  · intro htr
    rw [hsplit, if_pos htr]
    rfl
  · intro htr
    rw [hsplit, if_neg htr]
    rfl

/-- Witness for C3: a server-configuration-shaped mapping — tagged
`type="mcp"`, non-empty name, but no `"id"` key — contributes no
record of its own. -/
theorem generic_mapping_triple_condition_witness :
    walkAux guardHeap 1 (Node.dict serverConfigEntries)
      = walkDictNested guardHeap 0 serverConfigEntries :=
  (generic_mapping_triple_condition guardHeap serverConfigEntries 0).2 (by decide)

/-- C6 counterexample: two artifact references share the display name
"report.pdf"; the first has a null identifier, the second a resolved
one.  The merge keeps the first (null-identifier) reference, so it
does not prefer the resolved identifier when the null duplicate comes
first. -/
theorem artifact_merge_counterexample :
    (reconcile [] [] [FileEntry.info refNull, FileEntry.info refResolved] "").files
        = [FileEntry.info refNull]
      ∧ refNull.file_id = none ∧ refResolved.file_id = some "file_9" := by
  decide

/-- C6 amended: merging artifact references by display name is
first-occurrence-wins: of two references with the same non-empty
display name, the merged list keeps exactly the first one, its
identifier included (so a resolved identifier survives only when the
resolved duplicate comes first). -/
theorem artifact_merge_first_wins (f1 f2 : FileInfo) (n : String)
    (h1 : f1.file_name = some n) (h2 : f2.file_name = some n) (hn : n ≠ "") :
    (reconcile [] [] [FileEntry.info f1, FileEntry.info f2] "").files
      = [FileEntry.info f1] := by
  simp only [reconcile]
  rw [show sandboxFiles "" = [] from rfl, List.append_nil]
  simp [fileDedupLoop, h1, h2, hn]

/-- Witness for the amended C6: with the resolved duplicate first, the
merge keeps the resolved reference. -/
theorem artifact_merge_first_wins_witness :
    (reconcile [] [] [FileEntry.info refResolved, FileEntry.info refNull] "").files
      = [FileEntry.info refResolved] :=
  artifact_merge_first_wins refResolved refNull "report.pdf" rfl rfl (by decide)

/-- C7 counterexample: the runtime is uninitialized, the message is
non-empty, lazy initialization and the turn body both succeed — the
handler returns the success payload, so an uninitialized runtime does
not make the call fail (with AgentUnavailable or anything else). -/
theorem chat_uninitialized_counterexample :
    chat { agentInitialized := false, agentPresent := false } "hello"
        (Except.ok ()) (Except.ok { response := "done" })
      = ChatResult.ok { response := "done" } := by
  decide

/-- C7 amended: when the runtime is not initialized (or the agent is
absent) the handler first initializes it lazily; an exception raised
by that initialization — or by the turn body — is caught and returned
to the caller as an error payload carrying the exception's message
with HTTP status 500, not re-raised as RuntimeError; when everything
succeeds the success payload is returned. -/
theorem chat_error_handling (st : AgentState) (msg : String)
    (initRun : Except String Unit) (body : Except String ChatPayload)
    (hmsg : msg ≠ "") :
    (∀ e, st.agentInitialized = false ∨ st.agentPresent = false →
       initRun = Except.error e → chat st msg initRun body = ChatResult.err e 500)
    ∧ (∀ e, initRun = Except.ok () → body = Except.error e →
       chat st msg initRun body = ChatResult.err e 500)
    ∧ (∀ p, initRun = Except.ok () → body = Except.ok p →
       chat st msg initRun body = ChatResult.ok p) := by
  have hm : (msg == "") = false := by simpa using hmsg
  refine ⟨?_, ?_, ?_⟩
  · intro e hst hinit
    rcases hst with hst | hst <;>
      simp [chat, hm, hst, hinit]
  · intro e hinit hbody
    cases hii : !st.agentInitialized || !st.agentPresent <;>
      simp [chat, hm, hii, hinit, hbody]
  · intro p hinit hbody
    cases hii : !st.agentInitialized || !st.agentPresent <;>
      simp [chat, hm, hii, hinit, hbody]

/-- Witness for the amended C7: an uninitialized runtime whose lazy
initialization raises "boom" yields the 500 error payload "boom". -/
theorem chat_error_handling_witness :
    chat { agentInitialized := false, agentPresent := true } "q"
        (Except.error "boom") (Except.ok { response := "r" })
      = ChatResult.err "boom" 500 :=
  (chat_error_handling { agentInitialized := false, agentPresent := true } "q"
      (Except.error "boom") (Except.ok { response := "r" }) (by decide)).1
    "boom" (Or.inl rfl) rfl

theorem fileDedupLoop_append (a b : List FileEntry) : ∀ seen,
    fileDedupLoop seen (a ++ b) = fileDedupLoop (fileDedupLoop seen a) b := by
  induction a with
  | nil => intro seen; rfl
  | cons e rest ih =>
    intro seen
    cases e with
    | info fi =>
      cases hn : fi.file_name with
      | some n =>
        simp only [List.cons_append, fileDedupLoop, hn]
        by_cases hc : n ≠ "" ∧ n ∉ seen.map Prod.fst
        · rw [if_pos hc, if_pos hc]; exact ih _
        · rw [if_neg hc, if_neg hc]; exact ih _
      | none =>
        simp only [List.cons_append, fileDedupLoop, hn]
        exact ih seen
    | fid s =>
      simp only [List.cons_append, fileDedupLoop]
      by_cases hc : s ∉ seen.map Prod.fst
      · rw [if_pos hc, if_pos hc]; exact ih _
      · rw [if_neg hc, if_neg hc]; exact ih _

theorem fileDedupLoop_extend (es : List FileEntry) : ∀ seen,
    ∃ tail, fileDedupLoop seen es = seen ++ tail := by
  induction es with
  | nil => intro seen; exact ⟨[], (List.append_nil seen).symm⟩
  | cons e rest ih =>
    intro seen
    cases e with
    | info fi =>
      cases hn : fi.file_name with
      | some n =>
        simp only [fileDedupLoop, hn]
        by_cases hc : n ≠ "" ∧ n ∉ seen.map Prod.fst
        · rw [if_pos hc]
          obtain ⟨tail, htail⟩ := ih (seen ++ [(n, fi)])
          exact ⟨(n, fi) :: tail, by rw [htail, List.append_assoc]; rfl⟩
        · rw [if_neg hc]; exact ih seen
      | none =>
        simp only [fileDedupLoop, hn]
        exact ih seen
    | fid s =>
      simp only [fileDedupLoop]
      by_cases hc : s ∉ seen.map Prod.fst
      · rw [if_pos hc]
        obtain ⟨tail, htail⟩ := ih
          (seen ++ [(s, { file_id := some s, file_name := none, file_type := none,
                          sandbox_path := none })])
        refine ⟨(s, { file_id := some s, file_name := none, file_type := none,
                      sandbox_path := none }) :: tail, ?_⟩
        rw [htail, List.append_assoc]; rfl
      · rw [if_neg hc]; exact ih seen

theorem fileDedupLoop_key_mem (es : List FileEntry) : ∀ (seen : List (String × FileInfo))
    (fi : FileInfo) (n : String), FileEntry.info fi ∈ es → fi.file_name = some n →
    n ≠ "" → n ∈ (fileDedupLoop seen es).map Prod.fst := by
  induction es with
  | nil => intro seen fi n hmem _ _; exact absurd hmem (List.not_mem_nil _)
  | cons e rest ih =>
    intro seen fi n hmem hname hne
    rcases List.mem_cons.mp hmem with heq | hmem'
    · subst heq
      simp only [fileDedupLoop, hname]
      by_cases hc : n ≠ "" ∧ n ∉ seen.map Prod.fst
      · rw [if_pos hc]
        obtain ⟨tail, htail⟩ := fileDedupLoop_extend rest (seen ++ [(n, fi)])
        rw [htail, List.map_append]
        exact List.mem_append_left _ (by simp)
      · rw [if_neg hc]
        have hin : n ∈ seen.map Prod.fst := by
          by_contra hnin
          exact hc ⟨hne, hnin⟩
        obtain ⟨tail, htail⟩ := fileDedupLoop_extend rest seen
        rw [htail, List.map_append]
        exact List.mem_append_left _ hin
    · cases e with
      | info fi2 =>
        cases hn2 : fi2.file_name with
        | some n2 =>
          simp only [fileDedupLoop, hn2]
          by_cases hc : n2 ≠ "" ∧ n2 ∉ seen.map Prod.fst
          · rw [if_pos hc]; exact ih _ fi n hmem' hname hne
          · rw [if_neg hc]; exact ih _ fi n hmem' hname hne
        | none =>
          simp only [fileDedupLoop, hn2]
          exact ih _ fi n hmem' hname hne
      | fid s =>
        simp only [fileDedupLoop]
        by_cases hc : s ∉ seen.map Prod.fst
        · rw [if_pos hc]; exact ih _ fi n hmem' hname hne
        · rw [if_neg hc]; exact ih _ fi n hmem' hname hne

theorem fileDedupLoop_values (es : List FileEntry) : ∀ seen,
    (∀ e ∈ es, e.isInfo = true) →
    (∀ kv ∈ seen, (kv : String × FileInfo).2.file_name = some kv.1 ∧ kv.1 ≠ "") →
    ∀ kv ∈ fileDedupLoop seen es, kv.2.file_name = some kv.1 ∧ kv.1 ≠ "" := by
  induction es with
  | nil => intro seen _ hseen kv hkv; exact hseen kv hkv
  | cons e rest ih =>
    intro seen hinfo hseen kv hkv
    cases e with
    | fid s =>
      have := hinfo (FileEntry.fid s) (List.mem_cons_self _ _)
      simp [FileEntry.isInfo] at this
    | info fi =>
      have hinfo' : ∀ e ∈ rest, e.isInfo = true :=
        fun e he => hinfo e (List.mem_cons_of_mem _ he)
      cases hn : fi.file_name with
      | some n =>
        simp only [fileDedupLoop, hn] at hkv
        by_cases hc : n ≠ "" ∧ n ∉ seen.map Prod.fst
        · rw [if_pos hc] at hkv
          refine ih _ hinfo' ?_ kv hkv
          intro kv2 hkv2
          rcases List.mem_append.mp hkv2 with h2 | h2
          · exact hseen kv2 h2
          · rcases List.mem_singleton.mp h2 with h3
            rw [h3]
            exact ⟨hn, hc.1⟩
        · rw [if_neg hc] at hkv
          exact ih _ hinfo' hseen kv hkv
      | none =>
        simp only [fileDedupLoop, hn] at hkv
        exact ih _ hinfo' hseen kv hkv

theorem fileDedupLoop_keys_nodup (es : List FileEntry) : ∀ seen,
    ((seen.map Prod.fst).Nodup) →
    ((fileDedupLoop seen es).map Prod.fst).Nodup := by
  induction es with
  | nil => intro seen h; exact h
  | cons e rest ih =>
    intro seen hnd
    cases e with
    | info fi =>
      cases hn : fi.file_name with
      | some n =>
        simp only [fileDedupLoop, hn]
        by_cases hc : n ≠ "" ∧ n ∉ seen.map Prod.fst
        · rw [if_pos hc]
          refine ih _ ?_
          rw [List.map_append]
          simp only [List.map_cons, List.map_nil]
          exact List.Nodup.append hnd (List.nodup_singleton n)
            (by simpa using fun hm (he : n = n) => hc.2 hm)
        · rw [if_neg hc]; exact ih _ hnd
      | none =>
        simp only [fileDedupLoop, hn]
        exact ih _ hnd
    | fid s =>
      simp only [fileDedupLoop]
      by_cases hc : s ∉ seen.map Prod.fst
      · rw [if_pos hc]
        refine ih _ ?_
        rw [List.map_append]
        simp only [List.map_cons, List.map_nil]
        exact List.Nodup.append hnd (List.nodup_singleton s)
          (by simpa using fun hm (he : s = s) => hc hm)
      · rw [if_neg hc]; exact ih _ hnd

theorem fileDedupLoop_replay (res : List (String × FileInfo)) : ∀ seen,
    (∀ kv ∈ res, (kv : String × FileInfo).2.file_name = some kv.1 ∧ kv.1 ≠ "") →
    (((seen ++ res).map Prod.fst).Nodup) →
    fileDedupLoop seen (res.map fun kv => FileEntry.info kv.2) = seen ++ res := by
  induction res with
  | nil => intro seen _ _; simp [fileDedupLoop]
  | cons kv res' ih =>
    intro seen hP hnd
    obtain ⟨hname, hne⟩ := hP kv (List.mem_cons_self _ _)
    simp only [List.map_cons, fileDedupLoop, hname]
    have hnotin : kv.1 ∉ seen.map Prod.fst := by
      intro hin
      rw [List.map_append] at hnd
      have hdisj := (List.nodup_append.mp hnd).2.2
      exact hdisj hin (by simp)
    rw [if_pos ⟨hne, hnotin⟩]
    have hstep : (seen ++ [(kv.1, kv.2)]) ++ res' = seen ++ kv :: res' := by
      rw [List.append_assoc]; rfl
    rw [ih (seen ++ [(kv.1, kv.2)])
          (fun kv2 h2 => hP kv2 (List.mem_cons_of_mem _ h2))
          (by rw [hstep]; exact hnd)]
    rw [hstep]

theorem fileDedupLoop_absorb (es : List FileEntry) : ∀ seen,
    (∀ e ∈ es, e.isInfo = true) →
    (∀ fi n, FileEntry.info fi ∈ es → fi.file_name = some n → n ∈ seen.map Prod.fst) →
    fileDedupLoop seen es = seen := by
  induction es with
  | nil => intro seen _ _; rfl
  | cons e rest ih =>
    intro seen hinfo hkeys
    cases e with
    | fid s =>
      have := hinfo (FileEntry.fid s) (List.mem_cons_self _ _)
      simp [FileEntry.isInfo] at this
    | info fi =>
      have hinfo' : ∀ e ∈ rest, e.isInfo = true :=
        fun e he => hinfo e (List.mem_cons_of_mem _ he)
      have hkeys' : ∀ fi2 n, FileEntry.info fi2 ∈ rest → fi2.file_name = some n →
          n ∈ seen.map Prod.fst :=
        fun fi2 n h2 => hkeys fi2 n (List.mem_cons_of_mem _ h2)
      cases hn : fi.file_name with
      | some n =>
        simp only [fileDedupLoop, hn]
        have hin : n ∈ seen.map Prod.fst :=
          hkeys fi n (List.mem_cons_self _ _) hn
        rw [if_neg (fun hc => hc.2 hin)]
        exact ih seen hinfo' hkeys'
      | none =>
        simp only [fileDedupLoop, hn]
        exact ih seen hinfo' hkeys'

/-! ## Lemmas about the sandbox scan results (used by C9 and C10) -/

theorem pathMatch_fst_ne_nil : ∀ s g1 g2 r,
    pathMatch s = some (g1, g2, r) → g1 ≠ [] := by
  intro s
  induction s with
  | nil => intro g1 g2 r h; simp [pathMatch] at h
  | cons c rest _ =>
    intro g1 g2 r h
    simp only [pathMatch] at h
    by_cases hc : c == ')'
    · rw [if_pos hc] at h; exact absurd h (by simp)
    · rw [if_neg hc] at h
      cases hp : pathMatch rest with
      | some v =>
        obtain ⟨v1, v2, v3⟩ := v
        rw [hp] at h
        simp only [Option.some.injEq, Prod.mk.injEq] at h
        rw [← h.1]
        simp
      | none =>
        rw [hp] at h
        cases rest with
        | nil => exact absurd h (by simp)
        | cons d r2 =>
          by_cases hd : d == '.'
          · simp only [if_pos hd] at h
            cases ha : altMatch extAlternatives r2 with
            | some w =>
              obtain ⟨e, r3⟩ := w
              rw [ha] at h
              simp only [Option.some.injEq, Prod.mk.injEq] at h
              rw [← h.1]
              simp
            | none =>
              rw [ha] at h
              exact absurd h (by simp)
          · simp only [if_neg hd] at h
            exact absurd h (by simp)

theorem scanChars_fst_ne_nil : ∀ fuel s, ∀ m ∈ scanChars fuel s, m.1 ≠ [] := by
  intro fuel
  induction fuel with
  | zero => intro s m hm; simp [scanChars] at hm
  | succ f ih =>
    intro s m hm
    cases s with
    | nil => simp [scanChars] at hm
    | cons c rest =>
      simp only [scanChars] at hm
      cases hst : stripCI sandboxLit (c :: rest) with
      | none => simp only [hst] at hm; exact ih rest m hm
      | some afterLit =>
        simp only [hst] at hm
        cases hpm : pathMatch afterLit with
        | none => simp only [hpm] at hm; exact ih rest m hm
        | some v =>
          obtain ⟨g1, g2, r⟩ := v
          simp only [hpm] at hm
          rcases List.mem_cons.mp hm with he | hm'
          · rw [he]
            exact pathMatch_fst_ne_nil afterLit g1 g2 r hpm
          · exact ih r m hm'

/-- Every text-scanned file reference is a metadata dict with a
non-empty display name and a null identifier. -/
theorem sandboxFiles_entries (txt : String) (e : FileEntry)
    (he : e ∈ sandboxFiles txt) :
    ∃ fi n, e = FileEntry.info fi ∧ fi.file_name = some n ∧ n ≠ ""
      ∧ fi.file_id = none := by
  simp only [sandboxFiles, List.mem_map] at he
  obtain ⟨m, hm, he2⟩ := he
  refine ⟨_, String.mk m.1, he2.symm, rfl, ?_, rfl⟩
  have h1 : m.1 ≠ [] := scanChars_fst_ne_nil _ _ m hm
  intro hcon
  have h2 : String.mk m.1 = String.mk [] := hcon
  injection h2 with h3
  exact h1 h3

/-! ## C9: idempotence of the reconciliation -/

/-- The image pipeline applied to an already-reconciled image list (of
length at most 1) returns it unchanged. -/
theorem images_second_pass (l : List String) (hl : l.length ≤ 1) :
    (if 1 < (dedupLoop (fun s => s) [] l).length
     then [(dedupLoop (fun s => s) [] l).getLastD ""]
     else dedupLoop (fun s => s) [] l) = l := by
  match l, hl with
  | [], _ => rfl
  | [x], _ => simp [dedupLoop]
  | x :: y :: rest, hl => simp at hl

theorem latest_len_le_one (l : List String) :
    (if 1 < (dedupLoop (fun s => s) [] l).length
     then [(dedupLoop (fun s => s) [] l).getLastD ""]
     else dedupLoop (fun s => s) [] l).length ≤ 1 := by
  by_cases h : 1 < (dedupLoop (fun s => s) [] l).length
  · rw [if_pos h]; simp
  · rw [if_neg h]; exact Nat.le_of_not_lt h

theorem dedupLoop_idem {α κ : Type} [DecidableEq κ] (key : α → κ) (l : List α) :
    dedupLoop key [] (dedupLoop key [] l) = dedupLoop key [] l := by
  have h1 := dedupLoop_eq_spec key l
  rw [h1, dedupLoop_eq_spec, dedupSpec_idem, ← h1]

/-- The file pipeline applied to an already-reconciled file list (with
the same final text) returns it unchanged, provided the raw file list
held no bare string identifiers. -/
theorem files_second_pass (fls : List FileEntry) (txt : String)
    (hfls : ∀ e ∈ fls, e.isInfo = true) :
    fileDedupLoop []
        (((fileDedupLoop [] (fls ++ sandboxFiles txt)).map
            fun kv => FileEntry.info kv.2) ++ sandboxFiles txt)
      = fileDedupLoop [] (fls ++ sandboxFiles txt) := by
  have hAinfo : ∀ e ∈ fls ++ sandboxFiles txt, e.isInfo = true := by
    intro e he
    rcases List.mem_append.mp he with h | h
    · exact hfls e h
    · obtain ⟨fi, n, he2, _, _, _⟩ := sandboxFiles_entries txt e h
      rw [he2]; rfl
  have hvals : ∀ kv ∈ fileDedupLoop [] (fls ++ sandboxFiles txt),
      (kv : String × FileInfo).2.file_name = some kv.1 ∧ kv.1 ≠ "" :=
    fileDedupLoop_values _ _ hAinfo (by intro kv h; simp at h)
  have hnodup0 : ((fileDedupLoop [] (fls ++ sandboxFiles txt)).map Prod.fst).Nodup :=
    fileDedupLoop_keys_nodup _ _ (by simp)
  rw [fileDedupLoop_append]
  rw [fileDedupLoop_replay _ [] hvals (by simpa using hnodup0)]
  rw [List.nil_append]
  apply fileDedupLoop_absorb
  · intro e he
    obtain ⟨fi, n, he2, _, _, _⟩ := sandboxFiles_entries txt e he
    rw [he2]; rfl
  · intro fi n hmem hname
    obtain ⟨fi2, n2, he2, hn2, hne2, _⟩ := sandboxFiles_entries txt _ hmem
    have hfi : fi = fi2 := by injection he2
    rw [hfi, hn2] at hname
    injection hname with hnn
    rw [← hnn]
    exact fileDedupLoop_key_mem _ [] fi2 n2
      (List.mem_append.mpr (Or.inr (hfi ▸ hmem))) hn2 hne2

/-- C9 counterexample: a raw output whose file list holds the bare
string identifier "f1" reconciles to a metadata record with a null
display name; running the reconciliation again on its own output drops
that record entirely, so the result differs. -/
theorem reconciler_not_idempotent :
    reconcile (reconcile [] [] [FileEntry.fid "f1"] "").images
        (reconcile [] [] [FileEntry.fid "f1"] "").tool_details
        (reconcile [] [] [FileEntry.fid "f1"] "").files ""
      ≠ reconcile [] [] [FileEntry.fid "f1"] "" := by
  decide

/-- C9 amended: the reconciliation pipeline is idempotent on images,
tool records and tool labels for every raw output, and on the full
TurnOutputs whenever the raw file list contains only metadata records
(no bare string identifiers) — a bare string identifier is converted
by the first pass to a record with a null display name, which the
second pass's name-keyed dedup drops. -/
theorem reconciler_idempotent_for_named_files (imgs : List String)
    (tds : List ToolDetail) (fls : List FileEntry) (txt : String)
    (hfls : ∀ e ∈ fls, e.isInfo = true) :
    reconcile (reconcile imgs tds fls txt).images
        (reconcile imgs tds fls txt).tool_details
        (reconcile imgs tds fls txt).files txt
      = reconcile imgs tds fls txt := by
  simp only [reconcile, TurnOutputs.mk.injEq]
  refine ⟨?_, ?_, ?_, ?_⟩
  · exact images_second_pass _ (latest_len_le_one imgs)
  · exact congrArg (List.map fun kv => FileEntry.info kv.2)
      (files_second_pass fls txt hfls)
  · exact congrArg (List.map fun d => pyStr d.server ++ ":" ++ pyStr d.name)
      (dedupLoop_idem (fun d : ToolDetail => (d.name, d.arguments)) tds)
  · exact dedupLoop_idem (fun d : ToolDetail => (d.name, d.arguments)) tds

/-- Witness for the amended C9: reconciling twice with a named file
reference and no bare ids is a fixed point. -/
theorem reconciler_idempotent_for_named_files_witness :
    reconcile (reconcile [] [] [FileEntry.info refNull] "").images
        (reconcile [] [] [FileEntry.info refNull] "").tool_details
        (reconcile [] [] [FileEntry.info refNull] "").files ""
      = reconcile [] [] [FileEntry.info refNull] "" :=
  reconciler_idempotent_for_named_files [] [] [FileEntry.info refNull] ""
    (by decide)

/-! ## C5: the depth bound makes the walk terminate on every heap -/

/-- With more frames of stack budget than the depth bound admits
(`gas > 11 - depth`), the budgeted walk never exhausts its budget and
computes exactly the walker's result — on every heap, cyclic ones
included. -/
theorem walkGas_eq (h : Heap) : ∀ gas : Nat,
    (∀ node depth, 11 - depth < gas →
       walkGas h gas node depth = some (walkAux h (11 - depth) node))
    ∧ (∀ rs depth, 11 - depth < gas →
       walkGasRefs h gas rs depth = some (walkRefs h (11 - depth) rs)) := by
  intro gas
  induction gas with
  | zero =>
    constructor
    · intro node depth hlt; omega
    · intro rs depth hlt; omega
  | succ g ih =>
    have hW : ∀ node depth, 11 - depth < g + 1 →
        walkGas h (g + 1) node depth = some (walkAux h (11 - depth) node) := by
      intro node depth hlt
      by_cases hdep : depth > 10
      · have h11 : 11 - depth = 0 := by omega
        rw [h11]
        cases node <;> simp [walkGas, walkAux, hdep]
      · have h11 : 11 - depth = (10 - depth) + 1 := by omega
        have hchild : 11 - (depth + 1) < g := by omega
        have heq : 11 - (depth + 1) = 10 - depth := by omega
        rw [h11]
        cases node with
        | null => simp only [walkGas, hdep, if_false, walkAux]
        | str s => simp only [walkGas, hdep, if_false, walkAux]
        | mcpCall n sl a o => simp only [walkGas, hdep, if_false, walkAux]
        | wrapper r =>
          simp only [walkGas, hdep, if_false, walkAux]
          cases hdr : deref h r with
          | dict entries =>
            simp only [hdr]
            rw [ih.1 (Node.dict entries) (depth + 1) hchild, heq]
          | null => simp only [hdr]
          | str s => simp only [hdr]
          | mcpCall n sl a o => simp only [hdr]
          | wrapper r2 => simp only [hdr]
          | list items => simp only [hdr]
        | list items =>
          simp only [walkGas, hdep, if_false, walkAux]
          rw [ih.2 items (depth + 1) hchild, heq]
        | dict entries =>
          have hsd : (match lookupRef entries "step_details" with
                      | some r => walkGas h g (deref h r) (depth + 1)
                      | none => some [])
              = some (match lookupRef entries "step_details" with
                      | some r => walkAux h (10 - depth) (deref h r)
                      | none => []) := by
            cases hl : lookupRef entries "step_details" with
            | some r =>
              simp only [hl]
              rw [ih.1 (deref h r) (depth + 1) hchild, heq]
            | none => simp only [hl]
          have htc : (match lookupRef entries "tool_calls" with
                      | some r => walkGas h g (deref h r) (depth + 1)
                      | none => some [])
              = some (match lookupRef entries "tool_calls" with
                      | some r => walkAux h (10 - depth) (deref h r)
                      | none => []) := by
            cases hl : lookupRef entries "tool_calls" with
            | some r =>
              simp only [hl]
              rw [ih.1 (deref h r) (depth + 1) hchild, heq]
            | none => simp only [hl]
          have hrest : walkGasRefs h g
                ((entries.filter fun e =>
                   !(e.1 == "step_details") && !(e.1 == "tool_calls")).map Prod.snd)
                (depth + 1)
              = some (walkRefs h (10 - depth)
                  ((entries.filter fun e =>
                     !(e.1 == "step_details") && !(e.1 == "tool_calls")).map
                    Prod.snd)) := by
            rw [ih.2 _ (depth + 1) hchild, heq]
          simp only [walkGas, hdep, if_false, walkAux]
          simp only [hsd, htc, hrest]
    refine ⟨hW, ?_⟩
    intro rs
    induction rs with
    | nil =>
      intro depth hlt
      simp only [walkGasRefs, walkRefs]
    | cons r rest ihrs =>
      intro depth hlt
      simp only [walkGasRefs, walkRefs]
      rw [hW (deref h r) depth hlt]
      rw [ihrs depth hlt]

/-- C5: on every input — cyclic, self-referential or arbitrarily
nested heaps included — the walk of `_collect_tool_details` terminates
within 12 call frames: a stack budget of 12 is never exhausted, and
the budgeted run returns exactly the records the walker collects below
the depth bound. -/
theorem walker_terminates_within_bound (h : Heap) (node : Node) :
    walkGas h 12 node 0 = some (collect_tool_details h node) := by
  have hmain := (walkGas_eq h 12).1 node 0 (by omega)
  simpa [collect_tool_details] using hmain

/-! ## C10: the text scan is case-insensitive -/

theorem ciMatch_sound : ∀ p s t r, ciMatch p s = some (t, r) →
    t.map Char.toLower = p ∧ s = t ++ r := by
  intro p
  induction p with
  | nil =>
    intro s t r h
    simp only [ciMatch, Option.some.injEq, Prod.mk.injEq] at h
    rw [← h.1, ← h.2]
    exact ⟨rfl, rfl⟩
  | cons p0 ps ih =>
    intro s t r h
    cases s with
    | nil => simp [ciMatch] at h
    | cons c cs =>
      simp only [ciMatch] at h
      by_cases hc : c.toLower == p0
      · rw [if_pos hc] at h
        cases hcm : ciMatch ps cs with
        | none => rw [hcm] at h; simp at h
        | some v =>
          obtain ⟨t', r'⟩ := v
          rw [hcm] at h
          simp only [Option.map_some', Option.some.injEq, Prod.mk.injEq] at h
          obtain ⟨hm, hs⟩ := ih cs t' r' hcm
          rw [← h.1, ← h.2]
          constructor
          · simp only [List.map_cons, hm]
            have := beq_iff_eq.mp hc
            rw [this]
          · rw [hs]
            rfl
      · rw [if_neg hc] at h
        exact absurd h (by simp)

theorem ciMatch_full : ∀ p s, s.map Char.toLower = p → ciMatch p s = some (s, []) := by
  intro p
  induction p with
  | nil =>
    intro s hs
    rw [List.map_eq_nil_iff] at hs
    rw [hs]
    rfl
  | cons p0 ps ih =>
    intro s hs
    cases s with
    | nil => simp at hs
    | cons c cs =>
      simp only [List.map_cons, List.cons.injEq] at hs
      simp only [ciMatch]
      rw [if_pos (by simp [hs.1]), ih cs hs.2]
      rfl

/-- An alternative whose letters do not begin the scanned text (up to
case) fails. -/
theorem ciMatch_skip (e e0 : List Char) (s : List Char)
    (hs : s.map Char.toLower = e0) (hne : e0.take e.length ≠ e) :
    ciMatch e s = none := by
  cases hcm : ciMatch e s with
  | none => rfl
  | some tr =>
    obtain ⟨t, r⟩ := tr
    obtain ⟨ht, hsr⟩ := ciMatch_sound e s t r hcm
    exfalso
    apply hne
    rw [← hs, hsr, List.map_append, ht]
    have hlen : e.length = (List.map Char.toLower t).length := by simp [ht]
    rw [show e.length = t.length by simpa using hlen.symm ▸ (by simp : (List.map Char.toLower t).length = t.length)]
    rw [← ht, ← List.length_map t Char.toLower]
    exact List.take_left _ _

theorem altMatch_cons_none (p : List Char) (ps : List (List Char)) (s : List Char)
    (h : ciMatch p s = none) : altMatch (p :: ps) s = altMatch ps s := by
  simp [altMatch, h]

theorem altMatch_cons_some (p : List Char) (ps : List (List Char)) (s : List Char)
    (v : List Char × List Char) (h : ciMatch p s = some v) :
    altMatch (p :: ps) s = some v := by
  simp [altMatch, h]

/-- The alternation matches the whole scanned fragment whenever its
lowercase image is one of the fixed extensions — the matching is
case-insensitive. -/
theorem altMatch_of_mem (s : List Char) (h0 : s.map Char.toLower ∈ extAlternatives) :
    altMatch extAlternatives s = some (s, []) := by
  have hfull := ciMatch_full (s.map Char.toLower) s rfl
  simp only [extAlternatives, List.mem_cons, List.not_mem_nil, or_false] at h0
  simp only [extAlternatives]
  rcases h0 with h | h | h | h | h | h | h | h | h
  all_goals
    (repeat rw [altMatch_cons_none _ _ _ (ciMatch_skip _ _ s h (by decide))]
     exact altMatch_cons_some _ _ _ _ (h ▸ hfull))

/-- A fragment with no dot cannot match `[^\)]+\.(...)`. -/
theorem pathMatch_none_of_no_dot : ∀ s : List Char, '.' ∉ s → pathMatch s = none := by
  intro s
  induction s with
  | nil => intro _; rfl
  | cons c rest ih =>
    intro hnd
    have hrest : '.' ∉ rest := fun hmem => hnd (List.mem_cons_of_mem _ hmem)
    simp only [pathMatch, ih hrest]
    by_cases hc : c == ')'
    · rw [if_pos hc]
    · rw [if_neg hc]
      cases rest with
      | nil => rfl
      | cons d r2 =>
        have hd : ¬(d == '.') = true := by
          simp only [beq_iff_eq]
          intro hdd
          exact hrest (hdd ▸ List.mem_cons_self d r2)
        simp only [if_neg hd]

/-- On `stem ++ "." ++ ext` with a dot-free, paren-free, non-empty stem
and a fragment fully matched by the alternation, the greedy path
pattern matches the whole fragment. -/
theorem pathMatch_exact : ∀ stem ec : List Char, stem ≠ [] →
    (∀ c ∈ stem, c ≠ ')' ∧ c ≠ '.') →
    altMatch extAlternatives ec = some (ec, []) → '.' ∉ ec →
    pathMatch (stem ++ '.' :: ec) = some (stem ++ '.' :: ec, ec, []) := by
  intro stem
  induction stem with
  | nil => intro ec h _ _ _; exact absurd rfl h
  | cons c stem' ih =>
    intro ec _ hchars halt hnd
    have hc : ¬(c == ')') = true := by
      simp only [beq_iff_eq]
      exact (hchars c (List.mem_cons_self _ _)).1
    cases stem' with
    | nil =>
      have hdotec : pathMatch ('.' :: ec) = none := by
        simp only [pathMatch, pathMatch_none_of_no_dot ec hnd]
        rw [if_neg (by simp : ¬(('.' : Char) == ')') = true)]
        cases ec with
        | nil => rfl
        | cons d r2 =>
          have hd : ¬(d == '.') = true := by
            simp only [beq_iff_eq]
            intro hdd
            exact hnd (hdd ▸ List.mem_cons_self d r2)
          simp only [if_neg hd]
      rw [List.singleton_append]
      show (if c == ')' then none
            else
              match pathMatch ('.' :: ec) with
              | some (g1, g2, r) => some (c :: g1, g2, r)
              | none =>
                match '.' :: ec with
                | d :: r2 =>
                  if d == '.' then
                    match altMatch extAlternatives r2 with
                    | some (e, r3) => some (c :: d :: e, e, r3)
                    | none => none
                  else none
                | [] => none)
          = some (c :: '.' :: ec, ec, [])
      rw [hdotec]
      simp [hc, halt]
    | cons c2 rest' =>
      have hih := ih ec (by simp)
        (fun x hx => hchars x (List.mem_cons_of_mem _ hx)) halt hnd
      rw [List.cons_append]
      show (if c == ')' then none
            else
              match pathMatch (c2 :: rest' ++ '.' :: ec) with
              | some (g1, g2, r) => some (c :: g1, g2, r)
              | none =>
                match c2 :: rest' ++ '.' :: ec with
                | d :: r2 =>
                  if d == '.' then
                    match altMatch extAlternatives r2 with
                    | some (e, r3) => some (c :: d :: e, e, r3)
                    | none => none
                  else none
                | [] => none)
          = some (c :: (c2 :: rest' ++ '.' :: ec), ec, [])
      rw [hih]
      simp [hc]

/-- Stripping a lowercase literal off a text that starts with it,
character for character, succeeds. -/
theorem stripCI_self : ∀ p s : List Char, (∀ c ∈ p, Char.toLower c = c) →
    stripCI p (p ++ s) = some s := by
  intro p
  induction p with
  | nil => intro s _; rfl
  | cons c ps ih =>
    intro s hlow
    simp only [List.cons_append, stripCI]
    rw [if_pos (by simp [hlow c (List.mem_cons_self _ _)])]
    exact ih s fun x hx => hlow x (List.mem_cons_of_mem _ hx)

theorem scanChars_nil : ∀ fuel, scanChars fuel [] = [] := by
  intro fuel
  cases fuel with
  | zero => rfl
  | succ f => rfl

/-- The scan of a text that is exactly the sandbox literal followed by
a well-formed path yields exactly that one match. -/
theorem scanChars_exact (stem ec : List Char) (n : Nat) (hstem : stem ≠ [])
    (hchars : ∀ c ∈ stem, c ≠ ')' ∧ c ≠ '.')
    (halt : altMatch extAlternatives ec = some (ec, []))
    (hnd : '.' ∉ ec) :
    scanChars (n + 1) (sandboxLit ++ (stem ++ '.' :: ec))
      = [(stem ++ '.' :: ec, ec)] := by
  have hstrip : stripCI sandboxLit (sandboxLit ++ (stem ++ '.' :: ec))
      = some (stem ++ '.' :: ec) :=
    stripCI_self sandboxLit _ (by decide)
  have hpm := pathMatch_exact stem ec hstem hchars halt hnd
  have hconv : sandboxLit ++ (stem ++ '.' :: ec)
      = 's' :: ("andbox:/mnt/data/".data ++ (stem ++ '.' :: ec)) := rfl
  rw [hconv]
  have hstrip' : stripCI sandboxLit
      ('s' :: ("andbox:/mnt/data/".data ++ (stem ++ '.' :: ec)))
      = some (stem ++ '.' :: ec) := hstrip
  simp only [scanChars, hstrip', hpm]
  rw [scanChars_nil]

/-- C10: the sandbox text scan matches file references
case-insensitively: for every final text of the form
`sandbox:/mnt/data/<stem>.<ext>` whose extension differs from the
fixed extension set only in letter case (its lowercase image is one of
pptx, xlsx, csv, pdf, docx, txt, json, png, jpg — e.g. `Report.PDF`),
the reference is collected as a text-scanned artifact reference with a
null identifier, keeping the original spelling of name and extension. -/
theorem sandbox_scan_case_insensitive (stem ext : String)
    (h1 : stem.data ≠ [])
    (h2 : ∀ c ∈ stem.data, c ≠ ')' ∧ c ≠ '.')
    (h3 : ext.data.map Char.toLower ∈ extAlternatives) :
    (reconcile [] [] [] ("sandbox:/mnt/data/" ++ stem ++ "." ++ ext)).files
      = [FileEntry.info
          { file_id := none
            file_name := some (stem ++ "." ++ ext)
            file_type := some ext
            sandbox_path := some ("sandbox:/mnt/data/" ++ (stem ++ "." ++ ext)) }] := by
  have hdotext : ('.' : Char) ∉ ext.data := by
    intro hmem
    have hno : ∀ e ∈ extAlternatives, ('.' : Char) ∉ e := by decide
    have h4 : ('.' : Char) ∈ ext.data.map Char.toLower := by
      simpa [show ('.' : Char).toLower = '.' from by decide] using
        List.mem_map_of_mem Char.toLower hmem
    exact hno _ h3 h4
  have halt : altMatch extAlternatives ext.data = some (ext.data, []) :=
    altMatch_of_mem ext.data h3
  have hdata : ("sandbox:/mnt/data/" ++ stem ++ "." ++ ext).data
      = sandboxLit ++ (stem.data ++ '.' :: ext.data) := by
    simp only [String.data_append, List.append_assoc]
    rfl
  have hdata2 : (stem ++ "." ++ ext).data = stem.data ++ '.' :: ext.data := by
    simp only [String.data_append, List.append_assoc]
    rfl
  have hlit : sandboxLit.length = 18 := rfl
  have hscan : scanChars ("sandbox:/mnt/data/" ++ stem ++ "." ++ ext).data.length
        ("sandbox:/mnt/data/" ++ stem ++ "." ++ ext).data
      = [(stem.data ++ '.' :: ext.data, ext.data)] := by
    rw [hdata]
    have hl : (sandboxLit ++ (stem.data ++ '.' :: ext.data)).length
        = ((sandboxLit ++ (stem.data ++ '.' :: ext.data)).length - 1) + 1 := by
      rw [List.length_append, hlit]
      omega
    rw [hl]
    exact scanChars_exact stem.data ext.data _ h1 h2 halt hdotext
  have hmk1 : String.mk (stem.data ++ '.' :: ext.data) = stem ++ "." ++ ext := by
    rw [← hdata2]
  have hmk2 : String.mk ext.data = ext := rfl
  have hsf : sandboxFiles ("sandbox:/mnt/data/" ++ stem ++ "." ++ ext)
      = [FileEntry.info
          { file_id := none
            file_name := some (stem ++ "." ++ ext)
            file_type := some ext
            sandbox_path := some ("sandbox:/mnt/data/" ++ (stem ++ "." ++ ext)) }] := by
    simp only [sandboxFiles, hscan, List.map_cons, List.map_nil, hmk1, hmk2]
  have hne : stem ++ "." ++ ext ≠ "" := by
    intro hcon
    have hd := congrArg String.data hcon
    rw [hdata2] at hd
    simp at hd
  simp only [reconcile, List.nil_append, hsf, fileDedupLoop]
  rw [if_pos ⟨hne, by simp⟩]
  simp [fileDedupLoop]

/-- Witness for C10: `sandbox:/mnt/data/Report.PDF` — extension
differing from `pdf` only in case — is collected with a null
identifier. -/
theorem sandbox_scan_case_insensitive_witness :
    (reconcile [] [] [] ("sandbox:/mnt/data/" ++ "Report" ++ "." ++ "PDF")).files
      = [FileEntry.info
          { file_id := none
            file_name := some ("Report" ++ "." ++ "PDF")
            file_type := some "PDF"
            sandbox_path := some ("sandbox:/mnt/data/" ++ ("Report" ++ "." ++ "PDF")) }] :=
  sandbox_scan_case_insensitive "Report" "PDF" (by decide) (by decide) (by decide)

end NLSQL
